import Mathlib

/-!
Verification of the hybrid-retrieval pipeline (dense + BM25 + RRF + rerank +
neighbor-window context assembly + router + answer/judge reconciliation).

Modelling conventions:
* Python floats (scores, confidences) are modelled as exact rationals `ℚ`;
  all score arithmetic in the claims (`1/(k+r)` sums, `min`) is exact.
* The tiktoken encoder is external to the repository; texts are modelled at
  the token level as `List Nat` (`enc.encode text` is the list itself,
  `enc.decode (enc.encode text)[:n]` is `List.take n`; the empty string
  encodes to `[]`).
* Python dicts used as metadata are modelled as structures with `Option`
  fields; `dict.get(key, default)` is `Option.getD`.
* A Python dict keyed by strings (the RRF pool, the chunk map) is modelled
  as an insertion-ordered association list: lookup finds the first binding,
  update rewrites the first binding in place, insertion appends at the end —
  exactly Python's ordered-dict semantics.
-/

/-- Metadata dict attached to a retrieval hit (`meta` in the source); fields
are optional because the source reads them with `meta.get(key, default)`. -/
structure Meta where
  source : Option String
  block_idx : Option Int
  section_path : Option String
  chunk_id : Option String
deriving DecidableEq, Repr

/-- A retrieval hit tuple `(doc_id, score, meta, doc)` as produced by
`dense_search` / `sparse_search` and threaded through the pipeline. -/
structure Hit where
  doc_id : String
  score : ℚ
  meta : Meta
  doc : List Nat
deriving DecidableEq, Repr

/-! ## Router hard rules (`router_chain.main` and `agent.main.decide_action`) -/

/-- Router decision `{action, confidence, reason}`. -/
structure RouterDecision where
  action : String
  confidence : ℚ
  reason : String
deriving DecidableEq, Repr

/-- Hard-rule portion of `router_chain.main` (lines 174-191): returns
`some decision` when a hard rule fires (printed directly, function returns,
no LLM call); `none` means the function falls through to the LLM call. -/
def router_hard_rules (top1 avg5 : ℚ) (hits : Int) : Option RouterDecision :=
  if top1 ≥ 1/2 ∧ avg5 ≥ 35/100 ∧ hits ≥ 3 then
    some ⟨"rag", 9/10, "High retrieval scores (relaxed threshold)"⟩
  else if top1 < 15/100 ∨ avg5 < 1/10 ∨ hits < 2 then
    some ⟨"escalate", 9/10, "Extremely low retrieval scores"⟩
  else
    none

/-- Hard-rule portion of `agent.main.decide_action` (lines 21-28): returns
`some decision` when a hard rule fires; `none` means the code falls through
to the LLM router call. -/
def decide_action (top1 avg5 : ℚ) (hits : Int) : Option RouterDecision :=
  if top1 ≥ 7/10 ∧ avg5 ≥ 1/2 ∧ hits ≥ 3 then
    some ⟨"rag", 9/10, "High retrieval scores"⟩
  else if top1 < 35/100 ∨ avg5 < 3/10 ∨ hits < 3 then
    some ⟨"escalate", 9/10, "Low retrieval scores"⟩
  else
    none

/-! ## Answer / judge reconciliation (`hybrid_retrieve.main`, lines 342-371) -/

/-- Fields of a successfully `json.loads`-parsed answer-pass object; each
field is optional because the source reads it with `.get(key, default)`. -/
structure AnswerJson where
  can_answer : Option Bool
  confidence : Option ℚ
  answer : Option String
  reason : Option String
  sources : Option (List String)
deriving DecidableEq, Repr

/-- Fields of a successfully parsed judge-pass object. -/
structure JudgeJson where
  is_supported : Option Bool
  hallucination_level : Option Int
  overall_confidence : Option ℚ
  comment : Option String
deriving DecidableEq, Repr

/-- The `(can_answer, confidence, answer, reason, sources)` quintuple
assembled by `hybrid_retrieve.main` before/after the judge override. -/
structure AnswerResult where
  can_answer : Bool
  confidence : ℚ
  answer : String
  reason : String
  sources : List String
deriving DecidableEq, Repr

/-- The answer-pass `try`/`except` block (lines 342-356): `parsed = none`
models a `json.JSONDecodeError` from `json.loads(answer_text)`. -/
def parse_answer (answer_text : String) (parsed : Option AnswerJson)
    (chunk_ids : List String) : AnswerResult :=
  match parsed with
  | some j =>
      { can_answer := j.can_answer.getD true
        confidence := j.confidence.getD (1/2)
        answer := j.answer.getD answer_text
        reason := j.reason.getD ""
        sources := j.sources.getD chunk_ids }
  | none =>
      { can_answer := true
        confidence := 7/10
        answer := answer_text
        reason := "Plain text answer"
        sources := chunk_ids }

/-- The judge `try`/`except` block (lines 358-371): `parsed = none` models a
`json.JSONDecodeError` from `json.loads(judge_resp.content)`, which keeps the
answer-pass result unchanged. -/
def apply_judge (ans : AnswerResult) (parsed : Option JudgeJson) : AnswerResult :=
  match parsed with
  | none => ans
  | some j =>
      if j.is_supported.getD true = false ∨ 1 ≤ j.hallucination_level.getD 0 then
        { ans with
            can_answer := false
            confidence := min ans.confidence (j.overall_confidence.getD ans.confidence)
            reason := j.comment.getD "Judge detected issues" }
      else
        ans

/-- Scenario E inputs: answer pass parsed with `confidence=0.8,
can_answer=true`. -/
def scenarioE_answer : AnswerResult :=
  parse_answer "scenario-e" (some ⟨some true, some (8/10), some "a", some "r", some []⟩) []

/-- Scenario E judge: `is_supported=false, hallucination_level=2,
overall_confidence=0.2`. -/
def scenarioE_judge : JudgeJson :=
  ⟨some false, some 2, some (2/10), some "not supported"⟩

/-- C1: if the parsed judge says `is_supported=false` or
`hallucination_level ≥ 1`, the final result has `can_answer=false`,
`confidence = min (answer confidence) (judge overall_confidence)` and
`reason` equal to the judge's comment — for every answer-pass result. -/
theorem C1_judge_veto (ans : AnswerResult) (j : JudgeJson) (jc : ℚ) (cm : String)
    (hveto : j.is_supported.getD true = false ∨ 1 ≤ j.hallucination_level.getD 0)
    (hconf : j.overall_confidence = some jc) (hcm : j.comment = some cm) :
    (apply_judge ans (some j)).can_answer = false ∧
    (apply_judge ans (some j)).confidence = min ans.confidence jc ∧
    (apply_judge ans (some j)).reason = cm := by
  simp [apply_judge, hveto, hconf, hcm]

/-- C1 witness: Scenario E — answer `confidence=0.8, can_answer=true`, judge
`is_supported=false, hallucination_level=2, overall_confidence=0.2` gives a
final `can_answer=false`, `confidence=0.2`. -/
theorem C1_judge_veto_witness :
    (apply_judge scenarioE_answer (some scenarioE_judge)).can_answer = false ∧
    (apply_judge scenarioE_answer (some scenarioE_judge)).confidence = 2/10 := by
  have h := C1_judge_veto scenarioE_answer scenarioE_judge (2/10) "not supported"
    (Or.inl rfl) rfl rfl
  refine ⟨h.1, h.2.1.trans ?_⟩
  show min scenarioE_answer.confidence (2/10) = 2/10
  rw [min_eq_right]
  norm_num [scenarioE_answer, parse_answer]

/-- C2: at `(top1=0.8, avg_top5=0.6, hits=5)` both router call sites fire
their deterministic "rag" hard rule with confidence 0.9 (no LLM fall-through,
i.e. the result is not `none`), and at `(top1=0.1, avg_top5=0.05, hits=1)`
both fire the deterministic "escalate" hard rule with confidence 0.9. -/
theorem C2_router_hard_rules :
    router_hard_rules (8/10) (6/10) 5 =
      some ⟨"rag", 9/10, "High retrieval scores (relaxed threshold)"⟩ ∧
    decide_action (8/10) (6/10) 5 = some ⟨"rag", 9/10, "High retrieval scores"⟩ ∧
    router_hard_rules (1/10) (5/100) 1 =
      some ⟨"escalate", 9/10, "Extremely low retrieval scores"⟩ ∧
    decide_action (1/10) (5/100) 1 = some ⟨"escalate", 9/10, "Low retrieval scores"⟩ := by
  refine ⟨?_, ?_, ?_, ?_⟩ <;>
    · simp only [router_hard_rules, decide_action]
      norm_num

/-- C8: an unparseable answer pass yields `can_answer=true`, fallback
confidence 0.7, the raw text as answer; an unparseable judge pass keeps the
answer-pass result entirely unchanged. -/
theorem C8_parse_failure_fallbacks :
    (∀ (answer_text : String) (chunk_ids : List String),
      parse_answer answer_text none chunk_ids =
        { can_answer := true, confidence := 7/10, answer := answer_text,
          reason := "Plain text answer", sources := chunk_ids }) ∧
    (∀ ans : AnswerResult, apply_judge ans none = ans) := by
  exact ⟨fun _ _ => rfl, fun _ => rfl⟩

/-! ## Deduplicator (`dedup_results`, lines 117-128) -/

/-- Dedup key `(meta.get("source", ""), meta.get("block_idx", -1))`. -/
def dedupKey (h : Hit) : String × Int :=
  (h.meta.source.getD "", h.meta.block_idx.getD (-1))

/-- Loop of `dedup_results`, threading the `seen` key set (a Python `set`;
only membership and insertion are used, so a list of keys is faithful). -/
def dedupAux : List (String × Int) → List Hit → List Hit
  | _, [] => []
  | seen, x :: xs =>
    if dedupKey x ∈ seen then dedupAux seen xs
    else x :: dedupAux (dedupKey x :: seen) xs

/-- `dedup_results`: keep the first occurrence of each `(source, block_idx)`
key, drop subsequent duplicates. -/
def dedup_results (items : List Hit) : List Hit := dedupAux [] items

theorem dedupAux_sublist (seen : List (String × Int)) (l : List Hit) :
    (dedupAux seen l).Sublist l := by
  induction l generalizing seen with
  | nil => simp [dedupAux]
  | cons x xs ih =>
    simp only [dedupAux]
    by_cases h : dedupKey x ∈ seen
    · rw [if_pos h]; exact (ih seen).cons x
    · rw [if_neg h]; exact (ih _).cons₂ x

theorem dedupAux_key_not_seen (seen : List (String × Int)) (l : List Hit) :
    ∀ x ∈ dedupAux seen l, dedupKey x ∉ seen := by
  induction l generalizing seen with
  | nil => simp [dedupAux]
  | cons y ys ih =>
    simp only [dedupAux]
    by_cases h : dedupKey y ∈ seen
    · rw [if_pos h]; exact ih seen
    · rw [if_neg h]
      intro x hx
      rcases List.mem_cons.mp hx with rfl | hx
      · exact h
      · exact fun hmem => (ih _ x hx) (List.mem_cons_of_mem _ hmem)

theorem dedupAux_keys_nodup (seen : List (String × Int)) (l : List Hit) :
    ((dedupAux seen l).map dedupKey).Nodup := by
  induction l generalizing seen with
  | nil => simp [dedupAux]
  | cons y ys ih =>
    simp only [dedupAux]
    by_cases h : dedupKey y ∈ seen
    · rw [if_pos h]; exact ih seen
    · rw [if_neg h]
      simp only [List.map_cons, List.nodup_cons]
      refine ⟨?_, ih _⟩
      intro hmem
      rcases List.mem_map.mp hmem with ⟨x, hx, hkey⟩
      exact dedupAux_key_not_seen _ _ x hx (by rw [hkey]; exact List.mem_cons_self _ _)

theorem dedupAux_covers (seen : List (String × Int)) (l : List Hit) :
    ∀ y ∈ l, dedupKey y ∈ seen ∨ ∃ x ∈ dedupAux seen l, dedupKey x = dedupKey y := by
  induction l generalizing seen with
  | nil => simp
  | cons z zs ih =>
    intro y hy
    simp only [dedupAux]
    by_cases h : dedupKey z ∈ seen
    · rw [if_pos h]
      rcases List.mem_cons.mp hy with rfl | hy
      · exact Or.inl h
      · exact ih seen y hy
    · rw [if_neg h]
      rcases List.mem_cons.mp hy with rfl | hy
      · exact Or.inr ⟨y, List.mem_cons_self _ _, rfl⟩
      · rcases ih (dedupKey z :: seen) y hy with hmem | ⟨x, hx, hk⟩
        · rcases List.mem_cons.mp hmem with heq | hmem
          · exact Or.inr ⟨z, List.mem_cons_self _ _, heq.symm⟩
          · exact Or.inl hmem
        · exact Or.inr ⟨x, List.mem_cons_of_mem _ hx, hk⟩

theorem dedupAux_first_occ (seen : List (String × Int)) (l : List Hit) :
    ∀ x ∈ dedupAux seen l,
      l.find? (fun y => decide (dedupKey y = dedupKey x)) = some x := by
  induction l generalizing seen with
  | nil => simp [dedupAux]
  | cons z zs ih =>
    intro x hx
    simp only [dedupAux] at hx
    by_cases h : dedupKey z ∈ seen
    · rw [if_pos h] at hx
      have hne : dedupKey z ≠ dedupKey x := by
        intro he
        exact dedupAux_key_not_seen seen zs x hx (by rw [← he]; exact h)
      rw [List.find?_cons_of_neg _ (by simpa using hne), ih seen x hx]
    · rw [if_neg h] at hx
      rcases List.mem_cons.mp hx with rfl | hx
      · rw [List.find?_cons_of_pos _ (by simp)]
      · have hxs := dedupAux_key_not_seen _ _ x hx
        have hne : dedupKey z ≠ dedupKey x := by
          intro he
          exact hxs (by rw [← he]; exact List.mem_cons_self _ _)
        rw [List.find?_cons_of_neg _ (by simpa using hne), ih _ x hx]

/-- C9: deduplication keeps exactly the first occurrence of each
`(source, block_idx)` key: the output is a subsequence of the input, no two
output entries share a key, every input key is represented, and each kept
entry is the earliest input entry with its key. -/
theorem C9_dedup_first_occurrence (items : List Hit) :
    (dedup_results items).Sublist items ∧
    ((dedup_results items).map dedupKey).Nodup ∧
    (∀ y ∈ items, ∃ x ∈ dedup_results items, dedupKey x = dedupKey y) ∧
    (∀ x ∈ dedup_results items,
      items.find? (fun y => decide (dedupKey y = dedupKey x)) = some x) := by
  refine ⟨dedupAux_sublist [] items, dedupAux_keys_nodup [] items, ?_, dedupAux_first_occ [] items⟩
  intro y hy
  rcases dedupAux_covers [] items y hy with hmem | hex
  · exact absurd hmem (List.not_mem_nil _)
  · exact hex

/-- Concrete hits for dedup witnesses: `dupHitA` and `dupHitB` share the key
`("s", 0)`; `dupHitC` has key `("s", 1)`. -/
def dupHitA : Hit := ⟨"d1", 1, ⟨some "s", some 0, none, none⟩, [1]⟩

/-- Second hit with the same `(source, block_idx)` as `dupHitA`. -/
def dupHitB : Hit := ⟨"d2", 1, ⟨some "s", some 0, none, none⟩, [2]⟩

/-- Hit with a fresh key. -/
def dupHitC : Hit := ⟨"d3", 1, ⟨some "s", some 1, none, none⟩, [3]⟩

/-- C9 witness: on `[dupHitA, dupHitB, dupHitC]` the duplicate `dupHitB` is
covered by a kept entry with the same key. -/
theorem C9_dedup_first_occurrence_witness :
    dedup_results [dupHitA, dupHitB, dupHitC] = [dupHitA, dupHitC] ∧
    (∃ x ∈ dedup_results [dupHitA, dupHitB, dupHitC], dedupKey x = dedupKey dupHitB) := by
  refine ⟨rfl, (C9_dedup_first_occurrence [dupHitA, dupHitB, dupHitC]).2.2.1 dupHitB ?_⟩
  simp

/-- Predicate of C10: the hit's metadata lacks both the `source` and the
`block_idx` key. -/
def missingIdentity (h : Hit) : Bool :=
  h.meta.source.isNone && h.meta.block_idx.isNone

theorem countP_le_one_of_const_key (c : String × Int) (p : Hit → Bool)
    (hp : ∀ h : Hit, p h = true → dedupKey h = c) :
    ∀ l : List Hit, (l.map dedupKey).Nodup → l.countP p ≤ 1 := by
  intro l
  induction l with
  | nil => simp
  | cons x xs ih =>
    intro hnd
    rw [List.map_cons, List.nodup_cons] at hnd
    by_cases hx : p x = true
    · rw [List.countP_cons_of_pos _ _ hx]
      have hzero : xs.countP p = 0 := by
        rw [List.countP_eq_zero]
        intro y hy hpy
        exact hnd.1 (List.mem_map.mpr ⟨y, hy, by rw [hp y hpy, ← hp x hx]⟩)
      omega
    · rw [List.countP_cons_of_neg _ _ hx]
      exact ih hnd.2

/-- C10: any item whose metadata lacks both `source` and `block_idx` gets the
default key `("", -1)`, so at most one such item survives deduplication, even
if the items carry different texts or ids. -/
theorem C10_missing_identity_collapsed :
    (∀ h : Hit, missingIdentity h = true → dedupKey h = ("", -1)) ∧
    (∀ items : List Hit, (dedup_results items).countP missingIdentity ≤ 1) := by
  have hkey : ∀ h : Hit, missingIdentity h = true → dedupKey h = ("", -1) := by
    intro h hm
    rw [missingIdentity, Bool.and_eq_true, Option.isNone_iff_eq_none,
      Option.isNone_iff_eq_none] at hm
    rw [dedupKey, hm.1, hm.2]
    rfl
  exact ⟨hkey, fun items =>
    countP_le_one_of_const_key ("", -1) missingIdentity hkey _ (dedupAux_keys_nodup [] items)⟩

/-- An identity-free hit distinct in text/id from `noIdHitB`. -/
def noIdHitA : Hit := ⟨"x1", 1, ⟨none, none, none, none⟩, [1]⟩

/-- A second identity-free hit. -/
def noIdHitB : Hit := ⟨"x2", 1, ⟨none, none, none, none⟩, [2]⟩

/-- C10 witness: two identity-free hits collapse to one surviving entry. -/
theorem C10_missing_identity_collapsed_witness :
    dedupKey noIdHitA = ("", -1) ∧
    (dedup_results [noIdHitA, noIdHitB]).countP missingIdentity ≤ 1 ∧
    dedup_results [noIdHitA, noIdHitB] = [noIdHitA] := by
  exact ⟨C10_missing_identity_collapsed.1 noIdHitA rfl,
    C10_missing_identity_collapsed.2 [noIdHitA, noIdHitB], rfl⟩

/-! ## Rank Fuser (`rrf_fuse`, lines 82-97) -/

/-- Value stored in the RRF pool dict: `(score, meta, doc)`. -/
structure PoolEntry where
  score : ℚ
  meta : Meta
  doc : List Nat
deriving DecidableEq, Repr

/-- One `pool[doc_id] = ...` dict update from the fusion loop: if the key is
present, the first (unique) binding is rewritten in place with the summed
score and the CURRENT hit's meta/doc; otherwise the binding is appended. -/
def poolAdd : List (String × PoolEntry) → String → ℚ → Meta → List Nat →
    List (String × PoolEntry)
  | [], i, contrib, m, d => [(i, ⟨contrib, m, d⟩)]
  | (a, e) :: rest, i, contrib, m, d =>
    if a = i then (a, ⟨e.score + contrib, m, d⟩) :: rest
    else (a, e) :: poolAdd rest i contrib m d

/-- Inner loop `for rank, (doc_id, score, meta, doc) in enumerate(hits, 1)`:
each hit contributes `1/(k + rank)` to its id's pool entry. -/
def poolInsertHits (k : Nat) : List (String × PoolEntry) → Nat → List Hit →
    List (String × PoolEntry)
  | pool, _, [] => pool
  | pool, rank, h :: t =>
      poolInsertHits k (poolAdd pool h.doc_id (1 / ((k : ℚ) + (rank : ℚ))) h.meta h.doc)
        (rank + 1) t

/-- Stable descending insertion by fused score; `foldr` over it models
Python's stable `sorted(pool.items(), key=score, reverse=True)`. -/
def insertByScoreDesc (x : String × PoolEntry) :
    List (String × PoolEntry) → List (String × PoolEntry)
  | [] => [x]
  | y :: ys => if y.2.score ≤ x.2.score then x :: y :: ys else y :: insertByScoreDesc x ys

/-- Stable sort of the pool by fused score, descending. -/
def sortByScoreDesc (l : List (String × PoolEntry)) : List (String × PoolEntry) :=
  l.foldr insertByScoreDesc []

/-- `rrf_fuse`: build the pool from the dense list then the sparse list
(1-based ranks restarting per list), sort by fused score descending, return
the top `top_n` as hit tuples. -/
def rrf_fuse (dense_hits sparse_hits : List Hit) (k : Nat) (top_n : Nat) : List Hit :=
  ((sortByScoreDesc
      (poolInsertHits k (poolInsertHits k [] 1 dense_hits) 1 sparse_hits)).take top_n).map
    fun p => ⟨p.1, p.2.score, p.2.meta, p.2.doc⟩

/-- Specification-side sum of `1/(k + r)` over the 1-based ranks `r` (counted
from `rank`) at which the id occurs in the list. -/
def contribSum (k : Nat) : Nat → List Hit → String → ℚ
  | _, [], _ => 0
  | rank, h :: t, i =>
      (if h.doc_id = i then 1 / ((k : ℚ) + (rank : ℚ)) else 0) + contribSum k (rank + 1) t i

/-- Score recorded in the pool for an id (0 if absent). -/
def poolScore (pool : List (String × PoolEntry)) (i : String) : ℚ :=
  match pool.find? (fun p => decide (p.1 = i)) with
  | some p => p.2.score
  | none => 0

/-- Meta/doc recorded in the pool for an id. -/
def poolMD (pool : List (String × PoolEntry)) (i : String) : Option (Meta × List Nat) :=
  match pool.find? (fun p => decide (p.1 = i)) with
  | some p => some (p.2.meta, p.2.doc)
  | none => none

theorem poolScore_nil (i : String) : poolScore [] i = 0 := rfl

theorem poolScore_cons_eq (a : String) (e : PoolEntry) (rest : List (String × PoolEntry)) :
    poolScore ((a, e) :: rest) a = e.score := by
  simp only [poolScore]
  rw [List.find?_cons_of_pos _ (by simp)]

theorem poolScore_cons_ne (a : String) (e : PoolEntry) (rest : List (String × PoolEntry))
    (j : String) (h : a ≠ j) : poolScore ((a, e) :: rest) j = poolScore rest j := by
  simp only [poolScore]
  rw [List.find?_cons_of_neg _ (by simp [h])]

theorem poolMD_nil (i : String) : poolMD [] i = none := rfl

theorem poolMD_cons_eq (a : String) (e : PoolEntry) (rest : List (String × PoolEntry)) :
    poolMD ((a, e) :: rest) a = some (e.meta, e.doc) := by
  simp only [poolMD]
  rw [List.find?_cons_of_pos _ (by simp)]

theorem poolMD_cons_ne (a : String) (e : PoolEntry) (rest : List (String × PoolEntry))
    (j : String) (h : a ≠ j) : poolMD ((a, e) :: rest) j = poolMD rest j := by
  simp only [poolMD]
  rw [List.find?_cons_of_neg _ (by simp [h])]

theorem poolScore_poolAdd (pool : List (String × PoolEntry)) (i j : String)
    (c : ℚ) (m : Meta) (d : List Nat) :
    poolScore (poolAdd pool i c m d) j = poolScore pool j + (if i = j then c else 0) := by
  induction pool with
  | nil =>
    by_cases h : i = j
    · subst h
      rw [poolAdd, poolScore_cons_eq, poolScore_nil, if_pos rfl]
      ring
    · simp [poolAdd, poolScore_cons_ne _ _ _ _ h, if_neg h, poolScore_nil]
  | cons p rest ih =>
    obtain ⟨a, e⟩ := p
    simp only [poolAdd]
    by_cases hai : a = i
    · subst hai
      rw [if_pos rfl]
      by_cases haj : a = j
      · subst haj
        rw [poolScore_cons_eq, poolScore_cons_eq, if_pos rfl]
      · rw [poolScore_cons_ne _ _ _ _ haj, poolScore_cons_ne _ _ _ _ haj, if_neg haj]
        ring
    · rw [if_neg hai]
      by_cases haj : a = j
      · subst haj
        have hij : i ≠ a := fun he => hai he.symm
        rw [poolScore_cons_eq, poolScore_cons_eq, if_neg hij]
        ring
      · rw [poolScore_cons_ne _ _ _ _ haj, poolScore_cons_ne _ _ _ _ haj, ih]

theorem poolScore_poolInsertHits (k : Nat) (pool : List (String × PoolEntry))
    (rank : Nat) (hits : List Hit) (i : String) :
    poolScore (poolInsertHits k pool rank hits) i =
      poolScore pool i + contribSum k rank hits i := by
  induction hits generalizing pool rank with
  | nil => simp [poolInsertHits, contribSum]
  | cons h t ih =>
    simp only [poolInsertHits, contribSum]
    rw [ih, poolScore_poolAdd]
    by_cases he : h.doc_id = i
    · simp only [if_pos he]; ring
    · simp only [if_neg he]; ring

theorem mem_keys_poolAdd (pool : List (String × PoolEntry)) (i j : String)
    (c : ℚ) (m : Meta) (d : List Nat) :
    j ∈ (poolAdd pool i c m d).map Prod.fst ↔ j = i ∨ j ∈ pool.map Prod.fst := by
  induction pool with
  | nil => simp [poolAdd]
  | cons p rest ih =>
    obtain ⟨a, e⟩ := p
    simp only [poolAdd]
    by_cases hai : a = i
    · subst hai
      rw [if_pos rfl]
      simp only [List.map_cons, List.mem_cons]
      tauto
    · rw [if_neg hai]
      simp only [List.map_cons, List.mem_cons, ih]
      tauto

theorem keys_nodup_poolAdd (pool : List (String × PoolEntry)) (i : String)
    (c : ℚ) (m : Meta) (d : List Nat) (h : (pool.map Prod.fst).Nodup) :
    ((poolAdd pool i c m d).map Prod.fst).Nodup := by
  induction pool with
  | nil => simp [poolAdd]
  | cons p rest ih =>
    obtain ⟨a, e⟩ := p
    rw [List.map_cons, List.nodup_cons] at h
    simp only [poolAdd]
    by_cases hai : a = i
    · subst hai
      rw [if_pos rfl]
      rw [List.map_cons, List.nodup_cons]
      exact h
    · rw [if_neg hai]
      rw [List.map_cons, List.nodup_cons]
      refine ⟨?_, ih h.2⟩
      rw [mem_keys_poolAdd]
      rintro (rfl | hmem)
      · exact hai rfl
      · exact h.1 hmem

theorem keys_nodup_poolInsertHits (k : Nat) (pool : List (String × PoolEntry))
    (rank : Nat) (hits : List Hit) (h : (pool.map Prod.fst).Nodup) :
    ((poolInsertHits k pool rank hits).map Prod.fst).Nodup := by
  induction hits generalizing pool rank with
  | nil => exact h
  | cons x t ih =>
    simp only [poolInsertHits]
    exact ih _ _ (keys_nodup_poolAdd _ _ _ _ _ h)

theorem find?_self_of_keys_nodup (pool : List (String × PoolEntry))
    (p : String × PoolEntry) (hnd : (pool.map Prod.fst).Nodup) (hp : p ∈ pool) :
    pool.find? (fun q => decide (q.1 = p.1)) = some p := by
  induction pool with
  | nil => cases hp
  | cons a rest ih =>
    rw [List.map_cons, List.nodup_cons] at hnd
    rcases List.mem_cons.mp hp with rfl | hp
    · rw [List.find?_cons_of_pos _ (by simp)]
    · have hne : a.1 ≠ p.1 := by
        intro he
        exact hnd.1 (by rw [he]; exact List.mem_map.mpr ⟨p, hp, rfl⟩)
      rw [List.find?_cons_of_neg _ (by simp [hne])]
      exact ih hnd.2 hp

theorem poolMD_poolAdd_self (pool : List (String × PoolEntry)) (i : String)
    (c : ℚ) (m : Meta) (d : List Nat) :
    poolMD (poolAdd pool i c m d) i = some (m, d) := by
  induction pool with
  | nil => rw [poolAdd, poolMD_cons_eq]
  | cons p rest ih =>
    obtain ⟨a, e⟩ := p
    simp only [poolAdd]
    by_cases hai : a = i
    · subst hai
      rw [if_pos rfl, poolMD_cons_eq]
    · rw [if_neg hai, poolMD_cons_ne _ _ _ _ hai]
      exact ih

theorem poolMD_poolAdd_other (pool : List (String × PoolEntry)) (i j : String)
    (c : ℚ) (m : Meta) (d : List Nat) (hij : i ≠ j) :
    poolMD (poolAdd pool i c m d) j = poolMD pool j := by
  induction pool with
  | nil => rw [poolAdd, poolMD_cons_ne _ _ _ _ hij, poolMD_nil]
  | cons p rest ih =>
    obtain ⟨a, e⟩ := p
    simp only [poolAdd]
    by_cases hai : a = i
    · subst hai
      rw [if_pos rfl, poolMD_cons_ne _ _ _ _ hij, poolMD_cons_ne _ _ _ _ hij]
    · rw [if_neg hai]
      by_cases haj : a = j
      · subst haj
        rw [poolMD_cons_eq, poolMD_cons_eq]
      · rw [poolMD_cons_ne _ _ _ _ haj, poolMD_cons_ne _ _ _ _ haj]
        exact ih

theorem sortByScoreDesc_cons (x : String × PoolEntry) (xs : List (String × PoolEntry)) :
    sortByScoreDesc (x :: xs) = insertByScoreDesc x (sortByScoreDesc xs) := rfl

theorem mem_insertByScoreDesc (x y : String × PoolEntry) (l : List (String × PoolEntry)) :
    y ∈ insertByScoreDesc x l ↔ y = x ∨ y ∈ l := by
  induction l with
  | nil => simp [insertByScoreDesc]
  | cons z zs ih =>
    simp only [insertByScoreDesc]
    by_cases h : z.2.score ≤ x.2.score
    · rw [if_pos h]
      simp [List.mem_cons]
    · rw [if_neg h]
      simp only [List.mem_cons, ih]
      tauto

theorem mem_sortByScoreDesc (y : String × PoolEntry) (l : List (String × PoolEntry)) :
    y ∈ sortByScoreDesc l ↔ y ∈ l := by
  induction l with
  | nil => simp [sortByScoreDesc]
  | cons x xs ih =>
    rw [sortByScoreDesc_cons, mem_insertByScoreDesc, ih, List.mem_cons]

theorem pairwise_insertByScoreDesc (x : String × PoolEntry) (l : List (String × PoolEntry))
    (hl : l.Pairwise (fun a b => b.2.score ≤ a.2.score)) :
    (insertByScoreDesc x l).Pairwise (fun a b => b.2.score ≤ a.2.score) := by
  induction l with
  | nil => simp [insertByScoreDesc]
  | cons z zs ih =>
    rw [List.pairwise_cons] at hl
    simp only [insertByScoreDesc]
    by_cases h : z.2.score ≤ x.2.score
    · rw [if_pos h, List.pairwise_cons]
      refine ⟨?_, List.pairwise_cons.mpr hl⟩
      intro b hb
      rcases List.mem_cons.mp hb with rfl | hb
      · exact h
      · exact le_trans (hl.1 b hb) h
    · rw [if_neg h, List.pairwise_cons]
      refine ⟨?_, ih hl.2⟩
      intro b hb
      rcases (mem_insertByScoreDesc x b zs).mp hb with rfl | hb
      · exact le_of_not_le h
      · exact hl.1 b hb

theorem pairwise_sortByScoreDesc (l : List (String × PoolEntry)) :
    (sortByScoreDesc l).Pairwise (fun a b => b.2.score ≤ a.2.score) := by
  induction l with
  | nil => simp [sortByScoreDesc]
  | cons x xs ih =>
    rw [sortByScoreDesc_cons]
    exact pairwise_insertByScoreDesc x _ ih

/-- The pool built by `rrf_fuse` for the two input lists. -/
def rrfPool (dense_hits sparse_hits : List Hit) (k : Nat) : List (String × PoolEntry) :=
  poolInsertHits k (poolInsertHits k [] 1 dense_hits) 1 sparse_hits

theorem rrfPool_keys_nodup (dense_hits sparse_hits : List Hit) (k : Nat) :
    ((rrfPool dense_hits sparse_hits k).map Prod.fst).Nodup :=
  keys_nodup_poolInsertHits _ _ _ _
    (keys_nodup_poolInsertHits _ _ _ _ (by simp))

theorem rrfPool_score (dense_hits sparse_hits : List Hit) (k : Nat) (i : String) :
    poolScore (rrfPool dense_hits sparse_hits k) i =
      contribSum k 1 dense_hits i + contribSum k 1 sparse_hits i := by
  rw [rrfPool, poolScore_poolInsertHits, poolScore_poolInsertHits, poolScore_nil]
  ring

theorem mem_rrf_fuse_pool (dense_hits sparse_hits : List Hit) (k top_n : Nat)
    (e : Hit) (he : e ∈ rrf_fuse dense_hits sparse_hits k top_n) :
    ∃ p ∈ rrfPool dense_hits sparse_hits k,
      e = ⟨p.1, p.2.score, p.2.meta, p.2.doc⟩ := by
  rcases List.mem_map.mp he with ⟨p, hp, rfl⟩
  exact ⟨p, (mem_sortByScoreDesc p _).mp (List.mem_of_mem_take hp), rfl⟩

/-- C4: every fused candidate's score is the sum over its occurrences of
`1/(k_rrf + r)` (1-based rank `r`, both lists accumulating), the output is
sorted with fused score non-increasing, and at most `top_n` entries are
returned. -/
theorem C4_rrf_scores_sorted (dense_hits sparse_hits : List Hit) (k top_n : Nat) :
    (∀ e ∈ rrf_fuse dense_hits sparse_hits k top_n,
       e.score = contribSum k 1 dense_hits e.doc_id + contribSum k 1 sparse_hits e.doc_id) ∧
    (rrf_fuse dense_hits sparse_hits k top_n).Pairwise (fun a b => b.score ≤ a.score) ∧
    (rrf_fuse dense_hits sparse_hits k top_n).length ≤ top_n := by
  refine ⟨?_, ?_, ?_⟩
  · intro e he
    rcases mem_rrf_fuse_pool dense_hits sparse_hits k top_n e he with ⟨p, hp, rfl⟩
    show p.2.score = _
    rw [← rrfPool_score dense_hits sparse_hits k p.1]
    rw [poolScore, find?_self_of_keys_nodup _ p (rrfPool_keys_nodup dense_hits sparse_hits k) hp]
  · refine List.Pairwise.map _ (fun a b h => h) ?_
    exact List.Pairwise.sublist (List.take_sublist top_n _) (pairwise_sortByScoreDesc _)
  · rw [rrf_fuse, List.length_map, List.length_take]
    exact min_le_left _ _

theorem poolMD_poolInsertHits (k : Nat) (pool : List (String × PoolEntry))
    (rank : Nat) (hits : List Hit) (i : String) :
    poolMD (poolInsertHits k pool rank hits) i =
      match hits.reverse.find? (fun h => decide (h.doc_id = i)) with
      | some h => some (h.meta, h.doc)
      | none => poolMD pool i := by
  induction hits generalizing pool rank with
  | nil => simp [poolInsertHits]
  | cons h t ih =>
    simp only [poolInsertHits, List.reverse_cons, List.find?_append]
    rw [ih]
    cases hf : t.reverse.find? (fun x => decide (x.doc_id = i)) with
    | some h' => simp
    | none =>
      simp only [Option.none_or]
      by_cases he : h.doc_id = i
      · rw [List.find?_cons_of_pos _ (by simp [he]), ← he, poolMD_poolAdd_self]
      · rw [List.find?_cons_of_neg _ (by simp [he]), List.find?_nil,
          poolMD_poolAdd_other _ _ _ _ _ _ he]

/-- Scenario C markers: distinct metadata/doc per occurrence so the carried
meta/doc reveals which input list supplied them. -/
def metaA : Meta := ⟨some "A", some 0, none, none⟩

/-- Metadata of B as it appears in the dense (first) list. -/
def metaBdense : Meta := ⟨some "Bd", some 1, none, none⟩

/-- Metadata of B as it appears in the sparse (second) list. -/
def metaBsparse : Meta := ⟨some "Bs", some 2, none, none⟩

/-- Metadata of C (sparse list only). -/
def metaC : Meta := ⟨some "C", some 3, none, none⟩

/-- Scenario C dense list `[(A,1),(B,2)]` (ids at 1-based ranks 1 and 2). -/
def scenC_dense : List Hit := [⟨"A", 1, metaA, [10]⟩, ⟨"B", 1, metaBdense, [20]⟩]

/-- Scenario C sparse list `[(B,1),(C,2)]`. -/
def scenC_sparse : List Hit := [⟨"B", 2, metaBsparse, [21]⟩, ⟨"C", 1, metaC, [30]⟩]

theorem rrf_scenC_sorted :
    sortByScoreDesc (rrfPool scenC_dense scenC_sparse 60) =
      [("B", ⟨1/62 + 1/61, metaBsparse, [21]⟩), ("A", ⟨1/61, metaA, [10]⟩),
       ("C", ⟨1/62, metaC, [30]⟩)] := by
  have hAB : ("A" : String) ≠ "B" := by decide
  have hAC : ("A" : String) ≠ "C" := by decide
  have hBC : ("B" : String) ≠ "C" := by decide
  norm_num [rrfPool, scenC_dense, scenC_sparse, poolInsertHits, poolAdd,
    sortByScoreDesc, insertByScoreDesc, hAB, hAC, hBC]

theorem rrf_scenC_eval :
    rrf_fuse scenC_dense scenC_sparse 60 50 =
      [⟨"B", 1/62 + 1/61, metaBsparse, [21]⟩, ⟨"A", 1/61, metaA, [10]⟩,
       ⟨"C", 1/62, metaC, [30]⟩] := by
  have hpool : poolInsertHits 60 (poolInsertHits 60 [] 1 scenC_dense) 1 scenC_sparse =
      rrfPool scenC_dense scenC_sparse 60 := rfl
  simp only [rrf_fuse, hpool, rrf_scenC_sorted]
  rw [List.take_of_length_le (by norm_num)]
  rfl

/-- C4 witness: Scenario C — dense `[(A,1),(B,2)]`, sparse `[(B,1),(C,2)]`,
`k_rrf=60` gives fused totals `A:1/61, B:1/62+1/61, C:1/62` in output order
`B, A, C`, and B's total is exactly the claimed contribution sum. -/
theorem C4_rrf_scores_sorted_witness :
    (rrf_fuse scenC_dense scenC_sparse 60 50).map (fun e => (e.doc_id, e.score)) =
      [("B", 1/62 + 1/61), ("A", 1/61), ("C", 1/62)] ∧
    contribSum 60 1 scenC_dense "B" + contribSum 60 1 scenC_sparse "B" = 1/62 + 1/61 := by
  have hmem : (⟨"B", 1/62 + 1/61, metaBsparse, [21]⟩ : Hit) ∈
      rrf_fuse scenC_dense scenC_sparse 60 50 := by
    rw [rrf_scenC_eval]
    exact List.mem_cons_self _ _
  have h := (C4_rrf_scores_sorted scenC_dense scenC_sparse 60 50).1 _ hmem
  constructor
  · rw [rrf_scenC_eval]
    rfl
  · exact h.symm

/-- C5 counterexample: "B" appears in both Scenario C lists with
distinguishable metadata/doc; the fused candidate for B carries the sparse
(second) list's `metaBsparse`/`[21]`, not the dense (first) list's
`metaBdense`/`[20]` — the dict update overwrites meta/doc on every
occurrence, so the LAST reference wins, refuting the claim. -/
theorem C5_first_reference_counterexample :
    (rrf_fuse scenC_dense scenC_sparse 60 50).map (fun e => (e.doc_id, e.meta, e.doc)) =
      [("B", metaBsparse, [21]), ("A", metaA, [10]), ("C", metaC, [30])] ∧
    (metaBsparse, ([21] : List Nat)) ≠ (metaBdense, [20]) := by
  constructor
  · rw [rrf_scenC_eval]
    rfl
  · intro h
    exact absurd (congrArg Prod.fst h) (by decide)

/-- C5 (amended): each FusedCandidate carries the metadata and text of the
LAST occurrence of its id in processing order (dense list then sparse list);
in particular, for an id in both lists the sparse list's entry wins. -/
theorem C5_amended_last_reference (dense_hits sparse_hits : List Hit) (k top_n : Nat) :
    ∀ e ∈ rrf_fuse dense_hits sparse_hits k top_n,
      ∃ h, (dense_hits ++ sparse_hits).reverse.find?
          (fun x => decide (x.doc_id = e.doc_id)) = some h ∧
        e.meta = h.meta ∧ e.doc = h.doc := by
  intro e he
  rcases mem_rrf_fuse_pool dense_hits sparse_hits k top_n e he with ⟨p, hp, rfl⟩
  have hmd : poolMD (rrfPool dense_hits sparse_hits k) p.1 = some (p.2.meta, p.2.doc) := by
    rw [poolMD, find?_self_of_keys_nodup _ p (rrfPool_keys_nodup dense_hits sparse_hits k) hp]
  rw [rrfPool, poolMD_poolInsertHits, poolMD_poolInsertHits] at hmd
  rw [List.reverse_append, List.find?_append]
  cases hs : sparse_hits.reverse.find? (fun x => decide (x.doc_id = p.1)) with
  | some h =>
    rw [hs] at hmd
    simp only [Option.some_get, Option.or_some]
    exact ⟨h, rfl, by simpa using congrArg (Option.map Prod.fst) hmd.symm,
      by simpa using congrArg (Option.map Prod.snd) hmd.symm⟩
  | none =>
    rw [hs] at hmd
    cases hd : dense_hits.reverse.find? (fun x => decide (x.doc_id = p.1)) with
    | some h =>
      rw [hd] at hmd
      simp only [Option.none_or]
      exact ⟨h, rfl, by simpa using congrArg (Option.map Prod.fst) hmd.symm,
        by simpa using congrArg (Option.map Prod.snd) hmd.symm⟩
    | none =>
      rw [hd] at hmd
      exact absurd hmd (by simp [poolMD])

/-- C5 amended witness: in Scenario C the fused candidate for "B" carries
exactly the meta/doc of the last (sparse-list) reference to "B". -/
theorem C5_amended_last_reference_witness :
    ((scenC_dense ++ scenC_sparse).reverse.find?
        (fun x => decide (x.doc_id = "B"))).map (fun h => (h.meta, h.doc)) =
      some (metaBsparse, [21]) := by
  have hmem : (⟨"B", 1/62 + 1/61, metaBsparse, [21]⟩ : Hit) ∈
      rrf_fuse scenC_dense scenC_sparse 60 50 := by
    rw [rrf_scenC_eval]
    exact List.mem_cons_self _ _
  obtain ⟨h, hfind, hm, hd⟩ :=
    C5_amended_last_reference scenC_dense scenC_sparse 60 50 _ hmem
  have hfind' : (scenC_dense ++ scenC_sparse).reverse.find?
      (fun x => decide (x.doc_id = "B")) = some h := hfind
  rw [hfind', Option.map_some', ← hm, ← hd]

/-! ## Context Assembler (`collect_with_neighbors`, lines 140-182) -/

/-- A chunk record from the chunk map, with the fields
`collect_with_neighbors` reads via `.get`; `text` is the chunk's token
sequence (empty list = missing or empty text, both falsy in the source). -/
structure Chunk where
  section_path : Option String
  text : List Nat
  chunk_id : Option String
deriving DecidableEq, Repr

/-- `chunk_map.get(key)`: lookup of the (unique) binding in the dict. -/
def mapGet (m : List ((String × Int) × Chunk)) (key : String × Int) : Option Chunk :=
  (m.find? (fun p => decide (p.1 = key))).map Prod.snd

/-- Loop state of `collect_with_neighbors`: the `seen` key set, the emitted
`collected` list, the running `total_tokens`, and whether the early
`return collected` (budget wall) was taken. -/
structure CollectState where
  seen : List (String × Int)
  collected : List (String × List Nat)
  total : Nat
  stopped : Bool
deriving DecidableEq, Repr

/-- Python `range(lo, hi)` over integers. -/
def intRange (lo hi : Int) : List Int :=
  (List.range (hi - lo).toNat).map (fun n => lo + n)

/-- One neighbor-offset iteration of the inner loop. `stopped` models the
early `return collected`: once set, every later iteration is a no-op. (The
source retries `chunk_map.get` with `(src, int(nb))` when the first lookup
fails; `nb` is already an int so the retry is the identical lookup, modelled
by the single `mapGet`.) -/
def procNeighbor (m : List ((String × Int) × Chunk)) (maxTokens : Nat)
    (src : String) (sec : String) (s : CollectState) (nb : Int) : CollectState :=
  if s.stopped then s
  else if (src, nb) ∈ s.seen then s
  else
    match mapGet m (src, nb) with
    | none => s
    | some chunk =>
      if chunk.section_path.getD "" ≠ sec then s
      else if chunk.text = [] then s
      else if s.total + chunk.text.length > maxTokens then
        if maxTokens - s.total > 0 then
          { s with
              collected := s.collected ++
                [(chunk.chunk_id.getD (src ++ ":" ++ toString nb),
                  chunk.text.take (maxTokens - s.total))]
              stopped := true }
        else
          { s with stopped := true }
      else
        { s with
            collected := s.collected ++
              [(chunk.chunk_id.getD (src ++ ":" ++ toString nb), chunk.text)]
            total := s.total + chunk.text.length
            seen := (src, nb) :: s.seen }

/-- Per-hit iteration over neighbor offsets `block_idx - radius` …
`block_idx + radius` (inclusive). -/
def procHit (m : List ((String × Int) × Chunk)) (radius : Int) (maxTokens : Nat)
    (s : CollectState) (h : Hit) : CollectState :=
  (intRange (h.meta.block_idx.getD (-1) - radius)
      (h.meta.block_idx.getD (-1) + radius + 1)).foldl
    (procNeighbor m maxTokens (h.meta.source.getD "") (h.meta.section_path.getD "")) s

/-- `collect_with_neighbors`: collect hit chunks with neighbor blocks in the
same section, limited by tokens. -/
def collect_with_neighbors (top_hits : List Hit) (m : List ((String × Int) × Chunk))
    (radius : Int) (maxTokens : Nat) : List (String × List Nat) :=
  (top_hits.foldl (procHit m radius maxTokens) ⟨[], [], 0, false⟩).collected

/-- Total token count of an emitted chunk list. -/
def sumTok (l : List (String × List Nat)) : Nat := (l.map (fun p => p.2.length)).sum

theorem sumTok_append (l₁ l₂ : List (String × List Nat)) :
    sumTok (l₁ ++ l₂) = sumTok l₁ + sumTok l₂ := by
  simp [sumTok]

/-- Budget invariant: emitted tokens never exceed the budget, and while the
wall has not been hit, `total_tokens` equals the emitted token count. -/
def CollectInv (maxTokens : Nat) (s : CollectState) : Prop :=
  sumTok s.collected ≤ maxTokens ∧ (s.stopped = false → s.total = sumTok s.collected)

theorem procNeighbor_inv (m : List ((String × Int) × Chunk)) (maxTokens : Nat)
    (src sec : String) (s : CollectState) (nb : Int) (h : CollectInv maxTokens s) :
    CollectInv maxTokens (procNeighbor m maxTokens src sec s nb) := by
  obtain ⟨h1, h2⟩ := h
  unfold procNeighbor
  by_cases hs : s.stopped
  · rw [if_pos hs]; exact ⟨h1, h2⟩
  rw [if_neg hs]
  by_cases hseen : (src, nb) ∈ s.seen
  · rw [if_pos hseen]; exact ⟨h1, h2⟩
  rw [if_neg hseen]
  cases hchunk : mapGet m (src, nb) with
  | none => exact ⟨h1, h2⟩
  | some chunk =>
    dsimp only
    by_cases hsec : chunk.section_path.getD "" ≠ sec
    · rw [if_pos hsec]; exact ⟨h1, h2⟩
    rw [if_neg hsec]
    by_cases htext : chunk.text = []
    · rw [if_pos htext]; exact ⟨h1, h2⟩
    rw [if_neg htext]
    have htot : s.total = sumTok s.collected := h2 (by simpa using hs)
    simp only [sumTok] at h1 htot
    by_cases hover : s.total + chunk.text.length > maxTokens
    · rw [if_pos hover]
      by_cases hrem : maxTokens - s.total > 0
      · rw [if_pos hrem]
        refine ⟨?_, fun hc => by simp at hc⟩
        rw [sumTok_append]
        have hmin : min (maxTokens - s.total) chunk.text.length = maxTokens - s.total :=
          Nat.min_eq_left (by omega)
        simp only [sumTok, List.map_cons, List.map_nil, List.sum_cons, List.sum_nil,
          List.length_take, hmin]
        omega
      · rw [if_neg hrem]
        exact ⟨h1, fun hc => by simp at hc⟩
    · rw [if_neg hover]
      refine ⟨?_, fun _ => ?_⟩
      · rw [sumTok_append]
        simp only [sumTok, List.map_cons, List.map_nil, List.sum_cons, List.sum_nil]
        omega
      · show s.total + chunk.text.length = _
        rw [sumTok_append]
        simp only [sumTok, List.map_cons, List.map_nil, List.sum_cons, List.sum_nil]
        omega

theorem foldl_procNeighbor_inv (m : List ((String × Int) × Chunk)) (maxTokens : Nat)
    (src sec : String) (nbs : List Int) (s : CollectState) (h : CollectInv maxTokens s) :
    CollectInv maxTokens (nbs.foldl (procNeighbor m maxTokens src sec) s) := by
  induction nbs generalizing s with
  | nil => exact h
  | cons nb t ih => exact ih _ (procNeighbor_inv m maxTokens src sec s nb h)

theorem procHit_inv (m : List ((String × Int) × Chunk)) (radius : Int) (maxTokens : Nat)
    (s : CollectState) (x : Hit) (h : CollectInv maxTokens s) :
    CollectInv maxTokens (procHit m radius maxTokens s x) :=
  foldl_procNeighbor_inv m maxTokens _ _ _ s h

theorem foldl_procHit_inv (m : List ((String × Int) × Chunk)) (radius : Int)
    (maxTokens : Nat) (hits : List Hit) (s : CollectState) (h : CollectInv maxTokens s) :
    CollectInv maxTokens (hits.foldl (procHit m radius maxTokens) s) := by
  induction hits generalizing s with
  | nil => exact h
  | cons x t ih => exact ih _ (procHit_inv m radius maxTokens s x h)

theorem procNeighbor_stopped (m : List ((String × Int) × Chunk)) (maxTokens : Nat)
    (src sec : String) (s : CollectState) (nb : Int) (hs : s.stopped = true) :
    procNeighbor m maxTokens src sec s nb = s := by
  unfold procNeighbor
  rw [if_pos hs]

theorem foldl_procNeighbor_stopped (m : List ((String × Int) × Chunk)) (maxTokens : Nat)
    (src sec : String) (nbs : List Int) (s : CollectState) (hs : s.stopped = true) :
    nbs.foldl (procNeighbor m maxTokens src sec) s = s := by
  induction nbs with
  | nil => rfl
  | cons nb t ih =>
    rw [List.foldl_cons, procNeighbor_stopped m maxTokens src sec s nb hs, ih]

theorem procHit_stopped (m : List ((String × Int) × Chunk)) (radius : Int)
    (maxTokens : Nat) (s : CollectState) (x : Hit) (hs : s.stopped = true) :
    procHit m radius maxTokens s x = s :=
  foldl_procNeighbor_stopped m maxTokens _ _ _ s hs

theorem foldl_procHit_stopped (m : List ((String × Int) × Chunk)) (radius : Int)
    (maxTokens : Nat) (hits : List Hit) (s : CollectState) (hs : s.stopped = true) :
    hits.foldl (procHit m radius maxTokens) s = s := by
  induction hits with
  | nil => rfl
  | cons x t ih =>
    rw [List.foldl_cons, procHit_stopped m radius maxTokens s x hs, ih]

theorem procNeighbor_truncates (m : List ((String × Int) × Chunk)) (maxTokens : Nat)
    (src sec : String) (s : CollectState) (nb : Int) (chunk : Chunk)
    (hs : s.stopped = false) (hseen : (src, nb) ∉ s.seen)
    (hchunk : mapGet m (src, nb) = some chunk)
    (hsec : chunk.section_path.getD "" = sec) (htext : chunk.text ≠ [])
    (hover : s.total + chunk.text.length > maxTokens) :
    (0 < maxTokens - s.total →
      procNeighbor m maxTokens src sec s nb =
        { s with
            collected := s.collected ++
              [(chunk.chunk_id.getD (src ++ ":" ++ toString nb),
                chunk.text.take (maxTokens - s.total))]
            stopped := true }) ∧
    (maxTokens - s.total = 0 →
      procNeighbor m maxTokens src sec s nb = { s with stopped := true }) := by
  unfold procNeighbor
  rw [if_neg (by simp [hs]), if_neg hseen, hchunk]
  dsimp only
  rw [if_neg (by simp [hsec]), if_neg htext, if_pos hover]
  constructor
  · intro hrem
    rw [if_pos hrem]
  · intro hrem
    rw [if_neg (by omega)]

/-- Provenance predicate: the emitted pair is a possibly-truncated rendering
of a chunk found in the map at the given source, in the given section. -/
def EmittedFrom (m : List ((String × Int) × Chunk)) (src sec : String)
    (p : String × List Nat) : Prop :=
  ∃ nb chunk r, mapGet m (src, nb) = some chunk ∧
    chunk.section_path.getD "" = sec ∧
    p.1 = chunk.chunk_id.getD (src ++ ":" ++ toString nb) ∧
    p.2 = chunk.text.take r

theorem procNeighbor_collected (m : List ((String × Int) × Chunk)) (maxTokens : Nat)
    (src sec : String) (s : CollectState) (nb : Int) :
    ∃ t, (procNeighbor m maxTokens src sec s nb).collected = s.collected ++ t ∧
      ∀ p ∈ t, EmittedFrom m src sec p := by
  unfold procNeighbor
  by_cases hs : s.stopped
  · rw [if_pos hs]; exact ⟨[], by simp, by simp⟩
  rw [if_neg hs]
  by_cases hseen : (src, nb) ∈ s.seen
  · rw [if_pos hseen]; exact ⟨[], by simp, by simp⟩
  rw [if_neg hseen]
  cases hchunk : mapGet m (src, nb) with
  | none => exact ⟨[], by simp, by simp⟩
  | some chunk =>
    dsimp only
    by_cases hsec : chunk.section_path.getD "" ≠ sec
    · rw [if_pos hsec]; exact ⟨[], by simp, by simp⟩
    rw [if_neg hsec]
    by_cases htext : chunk.text = []
    · rw [if_pos htext]; exact ⟨[], by simp, by simp⟩
    rw [if_neg htext]
    by_cases hover : s.total + chunk.text.length > maxTokens
    · rw [if_pos hover]
      by_cases hrem : maxTokens - s.total > 0
      · rw [if_pos hrem]
        refine ⟨_, rfl, ?_⟩
        intro p hp
        rw [List.mem_singleton] at hp
        subst hp
        exact ⟨nb, chunk, maxTokens - s.total, hchunk, not_not.mp hsec, rfl, rfl⟩
      · rw [if_neg hrem]; exact ⟨[], by simp, by simp⟩
    · rw [if_neg hover]
      refine ⟨_, rfl, ?_⟩
      intro p hp
      rw [List.mem_singleton] at hp
      subst hp
      exact ⟨nb, chunk, chunk.text.length, hchunk, not_not.mp hsec, rfl,
        (List.take_length chunk.text).symm⟩

theorem foldl_procNeighbor_collected (m : List ((String × Int) × Chunk)) (maxTokens : Nat)
    (src sec : String) (nbs : List Int) (s : CollectState) :
    ∃ t, (nbs.foldl (procNeighbor m maxTokens src sec) s).collected = s.collected ++ t ∧
      ∀ p ∈ t, EmittedFrom m src sec p := by
  induction nbs generalizing s with
  | nil => exact ⟨[], by simp, by simp⟩
  | cons nb rest ih =>
    obtain ⟨t1, h1, hp1⟩ := procNeighbor_collected m maxTokens src sec s nb
    obtain ⟨t2, h2, hp2⟩ := ih (procNeighbor m maxTokens src sec s nb)
    refine ⟨t1 ++ t2, ?_, ?_⟩
    · rw [List.foldl_cons, h2, h1, List.append_assoc]
    · intro p hp
      rcases List.mem_append.mp hp with h | h
      · exact hp1 p h
      · exact hp2 p h

theorem procHit_collected (m : List ((String × Int) × Chunk)) (radius : Int)
    (maxTokens : Nat) (s : CollectState) (x : Hit) :
    ∃ t, (procHit m radius maxTokens s x).collected = s.collected ++ t ∧
      ∀ p ∈ t, EmittedFrom m (x.meta.source.getD "") (x.meta.section_path.getD "") p :=
  foldl_procNeighbor_collected m maxTokens _ _ _ s

theorem foldl_procHit_collected (m : List ((String × Int) × Chunk)) (radius : Int)
    (maxTokens : Nat) (hits : List Hit) (s : CollectState) :
    ∃ t, (hits.foldl (procHit m radius maxTokens) s).collected = s.collected ++ t ∧
      ∀ p ∈ t, ∃ x ∈ hits,
        EmittedFrom m (x.meta.source.getD "") (x.meta.section_path.getD "") p := by
  induction hits generalizing s with
  | nil => exact ⟨[], by simp, by simp⟩
  | cons x rest ih =>
    obtain ⟨t1, h1, hp1⟩ := procHit_collected m radius maxTokens s x
    obtain ⟨t2, h2, hp2⟩ := ih (procHit m radius maxTokens s x)
    refine ⟨t1 ++ t2, ?_, ?_⟩
    · rw [List.foldl_cons, h2, h1, List.append_assoc]
    · intro p hp
      rcases List.mem_append.mp hp with h | h
      · exact ⟨x, List.mem_cons_self _ _, hp1 p h⟩
      · obtain ⟨y, hy, hemit⟩ := hp2 p h
        exact ⟨y, List.mem_cons_of_mem _ hy, hemit⟩

/-- Chunk map for the budget-wall counterexample: the hit's own block holds
exactly the whole budget (2 tokens) and its next neighbor is nonempty. -/
def cexMap : List ((String × Int) × Chunk) :=
  [(("s", 0), ⟨some "sec", [1, 2], some "s:0"⟩),
   (("s", 1), ⟨some "sec", [3], some "s:1"⟩)]

/-- Hit whose neighbor window covers blocks -1..1 of source "s". -/
def cexHit : Hit := ⟨"h", 1, ⟨some "s", some 0, some "sec", none⟩, []⟩

/-- C3 counterexample: with budget 2, block 0 consumes exactly the budget;
neighbor block 1 is in the map, nonempty, in the same section, and adding it
would exceed the budget — yet no truncated chunk is appended (the output
still has only the one full chunk), because the remaining budget is zero. -/
theorem C3_zero_remainder_counterexample :
    collect_with_neighbors [cexHit] cexMap 1 2 = [("s:0", [1, 2])] ∧
    mapGet cexMap ("s", 1) = some ⟨some "sec", [3], some "s:1"⟩ ∧
    sumTok [("s:0", [1, 2])] + 1 > 2 := by
  refine ⟨?_, ?_, ?_⟩ <;> decide

/-- C3 (amended): the total token count of the emitted chunks never exceeds
`max_tokens`; when appending a chunk's full token sequence would exceed
`max_tokens`, the chunk is truncated to exactly the remaining budget and
appended PROVIDED the remaining budget is positive (when the budget is
already exactly consumed, nothing is appended), and in either case assembly
stops entirely: once the wall is hit, no later neighbor or hit emits. -/
theorem C3_token_budget_and_stop :
    (∀ (top_hits : List Hit) (m : List ((String × Int) × Chunk)) (radius : Int)
        (maxTokens : Nat),
      sumTok (collect_with_neighbors top_hits m radius maxTokens) ≤ maxTokens) ∧
    (∀ (m : List ((String × Int) × Chunk)) (maxTokens : Nat) (src sec : String)
        (s : CollectState) (nb : Int) (chunk : Chunk),
      s.stopped = false → (src, nb) ∉ s.seen → mapGet m (src, nb) = some chunk →
      chunk.section_path.getD "" = sec → chunk.text ≠ [] →
      s.total + chunk.text.length > maxTokens →
      (0 < maxTokens - s.total →
        procNeighbor m maxTokens src sec s nb =
          { s with
              collected := s.collected ++
                [(chunk.chunk_id.getD (src ++ ":" ++ toString nb),
                  chunk.text.take (maxTokens - s.total))]
              stopped := true }) ∧
      (maxTokens - s.total = 0 →
        procNeighbor m maxTokens src sec s nb = { s with stopped := true })) ∧
    (∀ (m : List ((String × Int) × Chunk)) (maxTokens : Nat) (src sec : String)
        (nbs : List Int) (s : CollectState), s.stopped = true →
      nbs.foldl (procNeighbor m maxTokens src sec) s = s) ∧
    (∀ (m : List ((String × Int) × Chunk)) (radius : Int) (maxTokens : Nat)
        (hits : List Hit) (s : CollectState), s.stopped = true →
      hits.foldl (procHit m radius maxTokens) s = s) := by
  refine ⟨?_, ?_, foldl_procNeighbor_stopped, foldl_procHit_stopped⟩
  · intro top_hits m radius maxTokens
    exact (foldl_procHit_inv m radius maxTokens top_hits ⟨[], [], 0, false⟩
      ⟨by simp [sumTok], fun _ => rfl⟩).1
  · intro m maxTokens src sec s nb chunk hs hseen hchunk hsec htext hover
    exact procNeighbor_truncates m maxTokens src sec s nb chunk hs hseen hchunk hsec
      htext hover

/-- Truncation-demo map: one long chunk at block 1 of source "s". -/
def truncMap : List ((String × Int) × Chunk) :=
  [(("s", 1), ⟨some "sec", [3, 4, 5], some "s:1"⟩)]

/-- An already-stopped loop state for the freeze conjuncts. -/
def stoppedState : CollectState := ⟨[], [("x", [9])], 1, true⟩

/-- C3 witness: concrete budget bound; a concrete truncation to exactly the
remaining budget (3-token chunk against budget 2 gives `[3, 4]`); and the
freeze of a stopped state across further neighbors and hits. -/
theorem C3_token_budget_and_stop_witness :
    sumTok (collect_with_neighbors [cexHit] cexMap 1 2) ≤ 2 ∧
    procNeighbor truncMap 2 "s" "sec" ⟨[], [], 0, false⟩ 1 =
      ⟨[], [("s:1", [3, 4])], 0, true⟩ ∧
    [(0 : Int), 1].foldl (procNeighbor truncMap 2 "s" "sec") stoppedState = stoppedState ∧
    [cexHit].foldl (procHit cexMap 1 2) stoppedState = stoppedState := by
  refine ⟨C3_token_budget_and_stop.1 [cexHit] cexMap 1 2, ?_,
    C3_token_budget_and_stop.2.2.1 truncMap 2 "s" "sec" [0, 1] stoppedState rfl,
    C3_token_budget_and_stop.2.2.2 cexMap 1 2 [cexHit] stoppedState rfl⟩
  have h := (C3_token_budget_and_stop.2.1 truncMap 2 "s" "sec" ⟨[], [], 0, false⟩ 1
    ⟨some "sec", [3, 4, 5], some "s:1"⟩ rfl (by simp) rfl rfl (by simp)
    (by decide)).1 (by decide)
  exact h.trans (by decide)

/-- C6: every emitted chunk is a (possibly truncated) rendering of a chunk
in the map at some originating hit's source whose `section_path` equals that
hit's `section_path`; a neighbor whose section differs from its originating
hit's section is never emitted. -/
theorem C6_section_consistency (top_hits : List Hit) (m : List ((String × Int) × Chunk))
    (radius : Int) (maxTokens : Nat) :
    ∀ p ∈ collect_with_neighbors top_hits m radius maxTokens,
      ∃ x ∈ top_hits,
        EmittedFrom m (x.meta.source.getD "") (x.meta.section_path.getD "") p := by
  intro p hp
  obtain ⟨t, ht, hall⟩ := foldl_procHit_collected m radius maxTokens top_hits ⟨[], [], 0, false⟩
  simp only [collect_with_neighbors] at hp
  rw [ht] at hp
  exact hall p (by simpa using hp)

/-- C6 witness: the chunk emitted for `cexHit` comes from the map at source
"s" with section "sec", the hit's own section. -/
theorem C6_section_consistency_witness :
    EmittedFrom cexMap "s" "sec" ("s:0", [1, 2]) := by
  have hp : ("s:0", [1, 2]) ∈ collect_with_neighbors [cexHit] cexMap 1 2 := by decide
  obtain ⟨x, hx, hemit⟩ := C6_section_consistency [cexHit] cexMap 1 2 _ hp
  rcases List.mem_cons.mp hx with heq | hx'
  · subst heq
    exact hemit
  · exact absurd hx' (List.not_mem_nil _)

/-! ## Context fallback (`hybrid_retrieve.main`, lines 278-293) -/

/-- Fallback loop over the reranked hits: break once `total ≥ max_tokens`,
otherwise emit the hit's own tokens truncated to the remaining budget and
advance `total` by the number of tokens actually taken. -/
def fallbackGo (maxTokens : Nat) : List Hit → Nat → List (String × List Nat)
  | [], _ => []
  | h :: t, total =>
    if total ≥ maxTokens then []
    else
      (h.meta.chunk_id.getD
          (h.meta.source.getD "" ++ ":" ++ toString (h.meta.block_idx.getD (-1))),
        h.doc.take (maxTokens - total)) ::
        fallbackGo maxTokens t (total + (h.doc.take (maxTokens - total)).length)

/-- Fallback entry point (`total = 0`). -/
def fallback_collect (reranked : List Hit) (maxTokens : Nat) : List (String × List Nat) :=
  fallbackGo maxTokens reranked 0

/-- Lines 278-293: neighbor assembly, falling back to the reranked hits'
own text when assembly emitted nothing. -/
def assemble_context (reranked : List Hit) (m : List ((String × Int) × Chunk))
    (radius : Int) (maxTokens : Nat) : List (String × List Nat) :=
  if collect_with_neighbors reranked m radius maxTokens = [] then
    fallback_collect reranked maxTokens
  else
    collect_with_neighbors reranked m radius maxTokens

theorem fallbackGo_budget (maxTokens : Nat) (l : List Hit) (total : Nat)
    (h : total ≤ maxTokens) :
    sumTok (fallbackGo maxTokens l total) + total ≤ maxTokens := by
  induction l generalizing total with
  | nil => simpa [fallbackGo, sumTok]
  | cons x t ih =>
    rw [fallbackGo]
    by_cases hb : total ≥ maxTokens
    · rw [if_pos hb]
      simpa [sumTok]
    · rw [if_neg hb]
      have hlen : (x.doc.take (maxTokens - total)).length ≤ maxTokens - total := by
        rw [List.length_take]
        exact Nat.min_le_left _ _
      have hih := ih (total + (x.doc.take (maxTokens - total)).length) (by omega)
      simp only [sumTok, List.map_cons, List.sum_cons] at hih ⊢
      omega

/-- Hit's fallback chunk id, as computed at line 288. -/
def fallbackCid (h : Hit) : String :=
  h.meta.chunk_id.getD
    (h.meta.source.getD "" ++ ":" ++ toString (h.meta.block_idx.getD (-1)))

theorem fallbackGo_order (maxTokens : Nat) (l : List Hit) (total : Nat) :
    ∃ n, (fallbackGo maxTokens l total).map Prod.fst = (l.take n).map fallbackCid := by
  induction l generalizing total with
  | nil => exact ⟨0, by simp [fallbackGo]⟩
  | cons x t ih =>
    rw [fallbackGo]
    by_cases hb : total ≥ maxTokens
    · rw [if_pos hb]
      exact ⟨0, by simp⟩
    · rw [if_neg hb]
      obtain ⟨n, hn⟩ := ih (total + (x.doc.take (maxTokens - total)).length)
      refine ⟨n + 1, ?_⟩
      simp only [List.map_cons, List.take_succ_cons, hn]
      rfl

/-- C7 counterexample: with `max_tokens = 0` the fallback loop breaks before
emitting anything, so the pipeline hands an empty context to the answer
stage even though a reranked hit exists (and assembly yielded nothing). -/
theorem C7_empty_fallback_counterexample :
    collect_with_neighbors [cexHit] [] 1 0 = [] ∧
    assemble_context [cexHit] [] 1 0 = [] ∧
    ([cexHit] : List Hit) ≠ [] := by
  refine ⟨by decide, by decide, by simp⟩

/-- C7 (amended): when neighbor assembly emits nothing, the pipeline uses
the fallback — the reranked hits' own text, token-truncated so the total
stays within `max_tokens`, with chunk ids in rerank order (a prefix of the
reranked list); and the resulting context is non-empty whenever at least one
reranked hit exists AND `max_tokens ≥ 1` (with a zero budget the fallback
emits nothing at all). -/
theorem C7_fallback_nonempty (reranked : List Hit) (m : List ((String × Int) × Chunk))
    (radius : Int) (maxTokens : Nat) :
    (collect_with_neighbors reranked m radius maxTokens = [] →
      assemble_context reranked m radius maxTokens = fallback_collect reranked maxTokens) ∧
    sumTok (fallback_collect reranked maxTokens) ≤ maxTokens ∧
    (∃ n, (fallback_collect reranked maxTokens).map Prod.fst =
      (reranked.take n).map fallbackCid) ∧
    (reranked ≠ [] → 1 ≤ maxTokens →
      collect_with_neighbors reranked m radius maxTokens = [] →
      assemble_context reranked m radius maxTokens ≠ []) := by
  refine ⟨fun hempty => ?_, ?_, fallbackGo_order maxTokens reranked 0, ?_⟩
  · rw [assemble_context, if_pos hempty]
  · have h := fallbackGo_budget maxTokens reranked 0 (Nat.zero_le _)
    rw [fallback_collect]
    omega
  · intro hne hpos hempty
    rw [assemble_context, if_pos hempty]
    cases reranked with
    | nil => exact absurd rfl hne
    | cons x t =>
      rw [fallback_collect, fallbackGo, if_neg (by omega)]
      exact List.cons_ne_nil _ _

/-- C7 witness: one reranked hit, empty chunk map, budget 3 — assembly is
empty, the fallback emits the hit's own tokens, and the context is
non-empty and within budget. -/
theorem C7_fallback_nonempty_witness :
    assemble_context [⟨"f", 1, ⟨some "s", some 0, none, none⟩, [5]⟩] [] 1 3 ≠ [] ∧
    sumTok (fallback_collect [⟨"f", 1, ⟨some "s", some 0, none, none⟩, [5]⟩] 3) ≤ 3 := by
  refine ⟨(C7_fallback_nonempty [⟨"f", 1, ⟨some "s", some 0, none, none⟩, [5]⟩] [] 1 3).2.2.2
    (by simp) (by omega) (by decide),
    (C7_fallback_nonempty [⟨"f", 1, ⟨some "s", some 0, none, none⟩, [5]⟩] [] 1 3).2.1⟩
